import Mathlib

/-!
Verification of the algorithmic core of the spatio-temporal-brain repository:
the grouped stratified k-fold splitter `StratifiedGroupKFold.split` and the
composite label encoder `merge_y_and_others` from `src/utils.py`, and the
early-stopping / checkpoint-selection epoch loop of `main_loop` from
`src/01_pyg_hcp.py`.  Python floats are embedded as exact real numbers (the
splitter's scores involve square roots) and as exact rationals where no square
root occurs (validation losses); NumPy's population standard deviation and
mean are spelled out; Python's seeded `random.Random(seed).shuffle`, which is
standard-library code rather than repository code, is passed in as an explicit
permutation function fixed by the seed.
-/

/-- Arithmetic mean of a list of reals, as computed by `np.mean`
(sum divided by length; on the empty list real division yields `0/0 = 0`). -/
noncomputable def npMean (xs : List ℝ) : ℝ := xs.sum / xs.length

/-- Population standard deviation of a list of reals, as computed by `np.std`:
the square root of the mean of the squared deviations from the mean. -/
noncomputable def npStd (xs : List ℝ) : ℝ :=
  Real.sqrt (npMean (xs.map fun x => (x - npMean xs) ^ 2))

/-- The class `StratifiedGroupKFold` of `src/utils.py`: its `__init__` merely
stores `n_splits` and `random_state`, with no validation. -/
structure StratifiedGroupKFold where
  n_splits : ℕ
  random_state : ℕ

/-- Count of labels, `labels_num = np.max(y) + 1` from `split`
(`np.max` of an empty array raises in NumPy; the embedding totalises the
maximum of the empty list to `0`). -/
def labelsNum (y : List ℕ) : ℕ := y.foldr max 0 + 1

/-- Keys of a Python dict built by inserting the elements of `l` in order:
the distinct elements of `l` in order of first appearance.  `List.dedup`
keeps last occurrences, so it is applied to the reversed list. -/
def firstKeys {G : Type} [DecidableEq G] (l : List G) : List G :=
  l.reverse.dedup.reverse

/-- Entry `y_counts_per_group[g]` of `split`: the vector, indexed by the
labels `0, …, labels_num - 1`, counting the samples of group `g` that carry
each label, accumulated over `zip(y, groups)`. -/
def groupCounts {G : Type} [DecidableEq G] (y : List ℕ) (groups : List G)
    (g : G) : List ℕ :=
  (List.range (labelsNum y)).map fun lab =>
    (y.zip groups).countP fun p => decide (p.1 = lab ∧ p.2 = g)

/-- Entry `y_distr[lab]` of `split`: the number of samples with label `lab`,
accumulated over the same `zip(y, groups)` loop as the per-group counts (so
a trailing portion of `y` longer than `groups` is not counted, and for every
label the per-group counts sum to `y_distr`). -/
def yDistr {G : Type} (y : List ℕ) (groups : List G) (lab : ℕ) : ℕ :=
  (y.zip groups).countP fun p => decide (p.1 = lab)

/-- The list `groups_and_y_counts = list(y_counts_per_group.items())`: the
(group, label-count-vector) pairs in dictionary insertion order, i.e. ordered
by first appearance of each group in `zip(y, groups)`. -/
def groupItems {G : Type} [DecidableEq G] (y : List ℕ) (groups : List G) :
    List (G × List ℕ) :=
  (firstKeys ((y.zip groups).map Prod.snd)).map fun g => (g, groupCounts y groups g)

/-- Strict `<` on IEEE float values, with `none` standing for NaN: a
comparison involving NaN is always false. -/
def floatLt (a b : Option ℝ) : Prop :=
  ∃ x y, a = some x ∧ b = some y ∧ x < y

/-- Score `eval_y_counts_per_fold(y_counts, i)` of `split`: with the group's
counts `c` tentatively added to fold `i` of the running table `T`, the mean
over labels of the standard deviation across folds of
`y_counts_per_fold[f][lab] / y_distr[lab]`, as the float value NumPy
computes, with float rounding idealised to exact reals and `none` standing
for NaN.  (The Python code adds the counts, computes the score and subtracts
them again; a pure embedding needs no rollback.)  The computed score is NaN
exactly under the guard: for `n = 0` each label's `np.std([])` is NaN; for
`L = 0` the final `np.mean([])` is NaN; and when some label `lab < L` has
`y_distr[lab] = 0`, every entry of that label's list is a division by zero —
`+inf` for a positive numerator, NaN for `0 / 0` — and a list each of whose
entries is `inf` or NaN has `np.std` NaN (its squared deviations involve
`inf - inf` or NaN), so that label poisons the final `np.mean` to NaN.
Otherwise every entry is a finite real and no NaN or infinity arises
anywhere, so the score is the real value of the formula. -/
noncomputable def foldScore (n L : ℕ) (distr : ℕ → ℕ) (T : ℕ → ℕ → ℕ)
    (c : ℕ → ℕ) (i : ℕ) : Option ℝ :=
  if n = 0 ∨ L = 0 ∨ ∃ lab < L, distr lab = 0 then none
  else
    some (npMean ((List.range L).map fun lab =>
      npStd ((List.range n).map fun f =>
        ((T f lab + if f = i then c lab else 0 : ℕ) : ℝ) / (distr lab : ℝ))))

open Classical in
/-- One step of the best-fold search of `split`: Python carries
`(best_fold, min_eval)`, starting from `(None, None)`, and replaces them
exactly when `min_eval is None` or `fold_eval < min_eval` holds strictly —
a float comparison, false whenever either side is NaN, so with NaN scores
the first probed fold is kept. -/
noncomputable def pickStep (score : ℕ → Option ℝ)
    (acc : Option (ℕ × Option ℝ)) (i : ℕ) : Option (ℕ × Option ℝ) :=
  match acc with
  | none => some (i, score i)
  | some (b, m) => if floatLt (score i) m then some (i, score i) else some (b, m)

/-- Fold chosen for a group by `split`: probe folds `0, …, n-1` in ascending
order and keep the first fold attaining the strictly smallest score
(`none` only when `n = 0`, where Python would keep `best_fold = None`). -/
noncomputable def pickFold (n : ℕ) (score : ℕ → Option ℝ) : Option ℕ :=
  ((List.range n).foldl (pickStep score) none).map Prod.fst

/-- Greedy assignment loop of `split`: for each (group, counts) item in
order, pick the best fold, commit the group's counts to that fold's row of
`y_counts_per_fold` and record the group in `groups_per_fold[best_fold]`
(modelled as the assignment list `asn`).  When `pickFold` is `none`
(only for `n = 0`) Python files the group under the key `None`, which the
yield loop never reads; the embedding simply drops it. -/
noncomputable def assignGo {G : Type} [DecidableEq G] (n L : ℕ)
    (distr : ℕ → ℕ) :
    List (G × List ℕ) → (ℕ → ℕ → ℕ) → List (G × ℕ) → List (G × ℕ)
  | [], _, asn => asn
  | (g, c) :: rest, T, asn =>
    match pickFold n (foldScore n L distr T fun lab => c.getD lab 0) with
    | none => assignGo n L distr rest T asn
    | some b =>
      assignGo n L distr rest
        (fun f lab => T f lab + if f = b then c.getD lab 0 else 0)
        (asn ++ [(g, b)])

open Classical in
/-- Comparison used by Python's stable `sorted(..., key=lambda x: -np.std(x[1]))`:
item `a` may precede item `b` iff the standard deviation of `b`'s own
label-count vector is at most that of `a`'s (descending standard deviation). -/
noncomputable def stdGE {G : Type} (a b : G × List ℕ) : Bool :=
  decide (npStd (b.2.map fun m => (m : ℝ)) ≤ npStd (a.2.map fun m => (m : ℝ)))

/-- The shuffled item list sorted by descending standard deviation of each
group's own label-count vector.  `List.mergeSort` is a stable sort, like
Python's `sorted`. -/
noncomputable def sortedItems {G : Type} (items : List (G × List ℕ)) :
    List (G × List ℕ) :=
  items.mergeSort stdGE

/-- Group-to-fold assignment computed by `split`.  The deterministic
seed-driven permutation performed by `random.Random(random_state).shuffle` is
passed in as the function `sh`: for a fixed seed it is one fixed function of
the item list (its internals are Python-library, not repository, code). -/
noncomputable def groupFoldAsn {G : Type} [DecidableEq G]
    (k : StratifiedGroupKFold)
    (sh : List (G × List ℕ) → List (G × List ℕ))
    (y : List ℕ) (groups : List G) : List (G × ℕ) :=
  assignGo k.n_splits (labelsNum y) (yDistr y groups)
    (sortedItems (sh (groupItems y groups))) (fun _ _ => 0) []

/-- Set `groups_per_fold[i]` of `split`, read off from the assignment list:
the groups committed to fold `i`. -/
def foldGroups {G : Type} [DecidableEq G] (asn : List (G × ℕ)) (i : ℕ) :
    List G :=
  (asn.filter fun p => decide (p.2 = i)).map Prod.fst

/-- Train indices of fold `i`:
`[j for j, g in enumerate(groups) if g in all_groups - groups_per_fold[i]]`
with `all_groups = set(groups)`. -/
def foldTrainIdx {G : Type} [DecidableEq G] (groups : List G)
    (asn : List (G × ℕ)) (i : ℕ) : List ℕ :=
  (groups.enum.filter fun p =>
    decide (p.2 ∈ groups ∧ ¬ p.2 ∈ foldGroups asn i)).map Prod.fst

/-- Test indices of fold `i`:
`[j for j, g in enumerate(groups) if g in groups_per_fold[i]]`. -/
def foldTestIdx {G : Type} [DecidableEq G] (groups : List G)
    (asn : List (G × ℕ)) (i : ℕ) : List ℕ :=
  (groups.enum.filter fun p => decide (p.2 ∈ foldGroups asn i)).map Prod.fst

/-- Yield loop of `split`: for each fold `i` in `range(n_splits)`, yield the
(train_indices, test_indices) pair of fold `i`. -/
def emitFolds {G : Type} [DecidableEq G] (groups : List G) (n : ℕ)
    (asn : List (G × ℕ)) : List (List ℕ × List ℕ) :=
  (List.range n).map fun i => (foldTrainIdx groups asn i, foldTestIdx groups asn i)

/-- Method `StratifiedGroupKFold.split(X, y, groups)` of `src/utils.py`.
The argument `X` is used by the Python code only through `enumerate(groups)`,
so it does not appear; the generator is embedded as the finite list of the
(train_indices, test_indices) pairs it yields, in yield order. -/
noncomputable def StratifiedGroupKFold.split {G : Type} [DecidableEq G]
    (k : StratifiedGroupKFold)
    (sh : List (G × List ℕ) → List (G × List ℕ))
    (y : List ℕ) (groups : List G) : List (List ℕ × List ℕ) :=
  emitFolds groups k.n_splits (groupFoldAsn k sh y groups)

open Classical in
/-- Selection rule of spec section 4.2 step 4, stated in the spec's own
words over the float scores: the fold with the minimum score — a fold whose
score no other fold's score strictly undercuts — ties broken by the
first-encountered fold index in ascending order (folds are evaluated
`0..n_splits-1` in order and strict `<` is the improvement test; a float
comparison involving NaN is always false). -/
noncomputable def leastArgmin (n : ℕ) (score : ℕ → Option ℝ) : Option ℕ :=
  (List.range n).find? fun i => decide (∀ j < n, ¬ floatLt (score j) (score i))

/-- Greedy assignment loop as described by the spec (section 4.2 step 4):
identical to `assignGo` except that the fold is chosen as the least
score-minimising index. -/
noncomputable def assignGoSpec {G : Type} [DecidableEq G] (n L : ℕ)
    (distr : ℕ → ℕ) :
    List (G × List ℕ) → (ℕ → ℕ → ℕ) → List (G × ℕ) → List (G × ℕ)
  | [], _, asn => asn
  | (g, c) :: rest, T, asn =>
    match leastArgmin n (foldScore n L distr T fun lab => c.getD lab 0) with
    | none => assignGoSpec n L distr rest T asn
    | some b =>
      assignGoSpec n L distr rest
        (fun f lab => T f lab + if f = b then c.getD lab 0 else 0)
        (asn ++ [(g, b)])

/-- The splitter as described by the spec's algorithm text: shuffle, stable
sort by descending standard deviation, then `assignGoSpec`, then the same
yield loop. -/
noncomputable def splitSpec {G : Type} [DecidableEq G]
    (k : StratifiedGroupKFold)
    (sh : List (G × List ℕ) → List (G × List ℕ))
    (y : List ℕ) (groups : List G) : List (List ℕ × List ℕ) :=
  emitFolds groups k.n_splits
    (assignGoSpec k.n_splits (labelsNum y) (yDistr y groups)
      (sortedItems (sh (groupItems y groups))) (fun _ _ => 0) [])

/-- Lexicographic comparison on integer pairs, modelling the sorted order of
`LabelEncoder().fit_transform`'s class list.  The Python code encodes the
strings `str(row)` of the rows of the N×2 integer matrix
`torch.cat([ys.long().view(-1,1), indices.view(-1,1)], dim=1)`; `str` is
injective on such rows, so the embedding encodes the rows themselves, and
only the resulting (irrelevant) class order differs from the string order. -/
def pairLe (a b : ℤ × ℤ) : Bool := decide (a.1 < b.1 ∨ (a.1 = b.1 ∧ a.2 ≤ b.2))

/-- Function `merge_y_and_others(ys, indices)` of `src/utils.py`: pair the
two label sequences elementwise and replace every pair by its index in the
sorted list of distinct observed pairs (`LabelEncoder().fit_transform`). -/
def merge_y_and_others (ys idx : List ℤ) : List ℕ :=
  let pairs := ys.zip idx
  let classes := pairs.dedup.mergeSort pairLe
  pairs.map fun p => @List.indexOf (ℤ × ℤ) instBEqOfDecidableEq p classes

/-- Early-stopping epoch loop of `main_loop` (`src/01_pyg_hcp.py`):
`for epoch in range(1, N_EPOCHS)` evaluates the validation loss `v epoch`
and stops (`break`) as soon as
`sum([loss_now > loss for loss in last_losses_val]) == EARLY_STOP_STEPS`,
otherwise appends the loss to the deque (max length `E`, evicting the
oldest).  Returns the stopping epoch, if any; `fuel` counts the remaining
loop iterations. -/
def esGo (v : ℕ → ℚ) (E : ℕ) : ℕ → ℕ → List ℚ → Option ℕ
  | 0, _, _ => none
  | fuel + 1, t, w =>
    if w.countP (fun l => decide (l < v t)) = E then some t
    else esGo v E fuel (t + 1) (w.drop 1 ++ [v t])

/-- Epoch at which the early-stopping rule fires for loss sequence `v`, with
window size `E = EARLY_STOP_STEPS` (window initialised to `E` copies of the
sentinel `1000`) and `N = N_EPOCHS` (the loop runs epochs `1, …, N-1`);
`none` when the loop runs to completion without stopping. -/
def stopEpoch (E N : ℕ) (v : ℕ → ℚ) : Option ℕ :=
  esGo v E (N - 1) 1 (List.replicate E 1000)

/-- Number of training epochs actually performed (calls of
`classifier_step`, which precede the stop check inside the loop body). -/
def erGo (v : ℕ → ℚ) (E : ℕ) : ℕ → ℕ → List ℚ → ℕ
  | 0, _, _ => 0
  | fuel + 1, t, w =>
    if w.countP (fun l => decide (l < v t)) = E then 1
    else 1 + erGo v E fuel (t + 1) (w.drop 1 ++ [v t])

/-- Count of epochs run by the epoch loop for loss sequence `v`. -/
def epochsRun (E N : ℕ) (v : ℕ → ℚ) : ℕ :=
  erGo v E (N - 1) 1 (List.replicate E 1000)

/-- Window contents after `m` epochs none of which triggered the stop. -/
def winAfter (E : ℕ) (v : ℕ → ℚ) : ℕ → List ℚ
  | 0 => List.replicate E 1000
  | m + 1 => (winAfter E v m).drop 1 ++ [v (m + 1)]

/-- Outer-fold selection state of `main_loop`: the fold-wide best validation
loss `best_outer_metric_loss` (sentinel `1000`) and
`best_model_name_outer_fold_loss`, modelled by the index of the
hyperparameter combination whose checkpoint file carries the best loss
(the checkpoint path is a deterministic function of the combination). -/
structure OuterSt where
  bestOuterLoss : ℚ
  bestName : Option ℕ

/-- Epoch loop of one hyperparameter combination (`src/01_pyg_hcp.py`,
lines 372-399), instrumented with the trace of loss evaluations and of
`torch.save` calls.  Each epoch `t`: evaluate `val = v t`; stop early —
before any save — when the early-stop count condition fires; otherwise push
the loss and, exactly when it is strictly below the per-combination best
`best_metrics_fold['loss']` (carried in `bf`, reset to the sentinel `1000`
at each combination), persist a checkpoint; nested inside, update the
fold-wide best and checkpoint name exactly when the loss is also strictly
below `best_outer_metric_loss`.  Events are (combination, epoch, value). -/
def ctrlGo (v : ℕ → ℚ) (E : ℕ) (c : ℕ) :
    ℕ → ℕ → List ℚ → ℚ → OuterSt →
      List (ℕ × ℕ × ℚ) × List (ℕ × ℕ × ℚ) × OuterSt
  | 0, _, _, _, st => ([], [], st)
  | fuel + 1, t, w, bf, st =>
    let val := v t
    if w.countP (fun l => decide (l < val)) = E then ([(c, t, val)], [], st)
    else
      let w' := w.drop 1 ++ [val]
      if val < bf then
        let st' := if val < st.bestOuterLoss then ⟨val, some c⟩ else st
        let r := ctrlGo v E c fuel (t + 1) w' val st'
        ((c, t, val) :: r.1, (c, t, val) :: r.2.1, r.2.2)
      else
        let r := ctrlGo v E c fuel (t + 1) w' bf st
        ((c, t, val) :: r.1, r.2.1, r.2.2)

/-- Hyperparameter-grid loop of `main_loop` for the epoch-trained branch:
one inner split per combination, epochs `1, …, N-1`, window and
per-combination best reset at each combination, fold-wide state threaded
through.  Grid entries are the validation-loss sequences the evaluation of
each candidate produces; `c` numbers the combinations in grid order. -/
def gridGo (E N : ℕ) : List (ℕ → ℚ) → ℕ → OuterSt →
    List (ℕ × ℕ × ℚ) × List (ℕ × ℕ × ℚ) × OuterSt
  | [], _, st => ([], [], st)
  | f :: rest, c, st =>
    let r := ctrlGo f E c (N - 1) 1 (List.replicate E 1000) 1000 st
    let r' := gridGo E N rest (c + 1) r.2.2
    (r.1 ++ r'.1, r.2.1 ++ r'.2.1, r'.2.2)

/-- One outer fold of the model-selection controller: run every
hyperparameter combination, starting from the fold-wide sentinels
(`best_outer_metric_loss = 1000`, no best model name).  Returns the
evaluation trace, the persist (checkpoint-save) trace and the final
fold-wide state. -/
def runGrid (E N : ℕ) (grid : List (ℕ → ℚ)) :
    List (ℕ × ℕ × ℚ) × List (ℕ × ℕ × ℚ) × OuterSt :=
  gridGo E N grid 0 ⟨1000, none⟩

/-- Execution order on controller events: `q` precedes `p` iff `q` belongs
to an earlier hyperparameter combination, or to an earlier epoch of the same
combination. -/
def evBefore (q p : ℕ × ℕ × ℚ) : Prop :=
  q.1 < p.1 ∨ (q.1 = p.1 ∧ q.2.1 < p.2.1)

instance evBefore.instDecidable (q p : ℕ × ℕ × ℚ) : Decidable (evBefore q p) :=
  inferInstanceAs (Decidable (q.1 < p.1 ∨ (q.1 = p.1 ∧ q.2.1 < p.2.1)))

/-- Persistence rule asserted by claim C8 for the loss metric: every
persisted value is strictly better (lower) than every loss evaluated earlier
in the fold — i.e. strictly better than the fold-wide best observed across
all epochs of all hyperparameter combinations tried so far. -/
def persistImprovesFoldWide (E N : ℕ) (grid : List (ℕ → ℚ)) : Prop :=
  ∀ p ∈ (runGrid E N grid).2.1, ∀ q ∈ (runGrid E N grid).1,
    evBefore q p → p.2.2 < q.2.2

/-- Fold-wide state update performed (in nested form) by the code whenever a
loss value is evaluated: replace the fold-wide best and best-name exactly
when the value strictly improves it. -/
def outerUpd (s : OuterSt) (e : ℕ × ℕ × ℚ) : OuterSt :=
  if e.2.2 < s.bestOuterLoss then ⟨e.2.2, some e.1⟩ else s

/-! ### Lemmas about the best-fold selection loop -/

/-- Strict float `<` on two non-NaN values is the real comparison. -/
lemma floatLt_some_iff {a b : ℝ} : floatLt (some a) (some b) ↔ a < b := by
  constructor
  · rintro ⟨x, y, hx, hy, hlt⟩
    obtain rfl := Option.some.inj hx
    obtain rfl := Option.some.inj hy
    exact hlt
  · intro h
    exact ⟨a, b, rfl, rfl, h⟩

/-- No float value is strictly below NaN. -/
lemma floatLt_none_right (a : Option ℝ) : ¬ floatLt a none := by
  rintro ⟨x, y, -, hy, -⟩
  exact Option.noConfusion hy

/-- NaN is strictly below no float value. -/
lemma floatLt_none_left (b : Option ℝ) : ¬ floatLt none b := by
  rintro ⟨x, y, hx, -, -⟩
  exact Option.noConfusion hx

/-- The accumulation always settles on a probed fold. -/
lemma pickAux_isSome (score : ℕ → Option ℝ) :
    ∀ n, 1 ≤ n → ∃ b m,
      (List.range n).foldl (pickStep score) none = some (b, m) ∧ b < n := by
  intro n
  induction n with
  | zero => omega
  | succ n ih =>
    intro _
    by_cases hn : 1 ≤ n
    · obtain ⟨b, m, heq, hb⟩ := ih hn
      rw [List.range_succ, List.foldl_append, heq]
      by_cases hlt : floatLt (score n) m
      · exact ⟨n, score n, by simp [pickStep, hlt], by omega⟩
      · exact ⟨b, m, by simp [pickStep, hlt], by omega⟩
    · have hn0 : n = 0 := by omega
      subst hn0
      exact ⟨0, score 0, by simp [List.range_succ, pickStep], by omega⟩

/-- With every score NaN, strict `<` never fires and the loop keeps the
first probed fold. -/
lemma pickAux_nan (score : ℕ → Option ℝ) (hs : ∀ i, score i = none) :
    ∀ n, 1 ≤ n →
      (List.range n).foldl (pickStep score) none = some (0, none) := by
  intro n
  induction n with
  | zero => omega
  | succ n ih =>
    intro _
    by_cases hn : 1 ≤ n
    · rw [List.range_succ, List.foldl_append, ih hn]
      have hnotlt : ¬ floatLt (score n) none := floatLt_none_right _
      simp [pickStep, hnotlt]
    · have hn0 : n = 0 := by omega
      subst hn0
      simp [List.range_succ, pickStep, hs 0]

/-- With every score real, the loop keeps the first fold attaining the
minimum. -/
lemma pickAux_spec (score : ℕ → Option ℝ) (r : ℕ → ℝ)
    (hs : ∀ i, score i = some (r i)) :
    ∀ n, 1 ≤ n → ∃ b,
      (List.range n).foldl (pickStep score) none = some (b, some (r b)) ∧
      b < n ∧ (∀ j, j < n → r b ≤ r j) ∧ ∀ j, j < b → r b < r j := by
  intro n
  induction n with
  | zero => omega
  | succ n ih =>
    intro _
    by_cases hn : 1 ≤ n
    · obtain ⟨b, heq, hb, hmin, hfirst⟩ := ih hn
      rw [List.range_succ, List.foldl_append, heq]
      by_cases hlt : r n < r b
      · have hflt : floatLt (score n) (some (r b)) := by
          rw [hs n]
          exact floatLt_some_iff.mpr hlt
        have hflt2 : floatLt (some (r n)) (some (r b)) :=
          floatLt_some_iff.mpr hlt
        refine ⟨n, ?_, by omega, ?_, ?_⟩
        · simp [pickStep, hs n, hflt2]
        · intro j hj
          rcases Nat.lt_succ_iff_lt_or_eq.mp hj with h | h
          · exact le_of_lt (lt_of_lt_of_le hlt (hmin j h))
          · subst h
            exact le_refl _
        · intro j hj
          exact lt_of_lt_of_le hlt (hmin j hj)
      · have hflt : ¬ floatLt (score n) (some (r b)) := by
          rw [hs n]
          intro hcon
          exact hlt (floatLt_some_iff.mp hcon)
        refine ⟨b, ?_, by omega, ?_, hfirst⟩
        · simp [pickStep, hflt]
        · intro j hj
          rcases Nat.lt_succ_iff_lt_or_eq.mp hj with h | h
          · exact hmin j h
          · subst h
            exact not_lt.mp hlt
    · have hn0 : n = 0 := by omega
      subst hn0
      refine ⟨0, ?_, by omega, ?_, by omega⟩
      · simp [List.range_succ, pickStep, hs 0]
      · intro j hj
        have hj0 : j = 0 := by omega
        subst hj0
        exact le_refl _

/-- Existence and bound for the chosen fold. -/
lemma pickFold_some (score : ℕ → Option ℝ) (n : ℕ) (hn : 1 ≤ n) :
    ∃ b, pickFold n score = some b ∧ b < n := by
  obtain ⟨b, m, heq, hb⟩ := pickAux_isSome score n hn
  exact ⟨b, by simp [pickFold, heq], hb⟩

/-- The chosen fold is one of the probed folds. -/
lemma pickFold_lt (score : ℕ → Option ℝ) (n b : ℕ)
    (h : pickFold n score = some b) : b < n := by
  by_cases hn : 1 ≤ n
  · obtain ⟨b', hb', hlt⟩ := pickFold_some score n hn
    rw [h] at hb'
    cases hb'
    exact hlt
  · have : n = 0 := by omega
    subst this
    simp [pickFold] at h

/-- A `find?` over an index range returns the first index satisfying the
predicate. -/
lemma find?_range_first (p : ℕ → Bool) (b : ℕ) (hpb : p b = true)
    (hmin : ∀ i, i < b → p i = false) :
    ∀ n, b < n → (List.range n).find? p = some b := by
  intro n
  induction n with
  | zero => omega
  | succ n ih =>
    intro hbn
    rw [List.range_succ, List.find?_append]
    by_cases h : b < n
    · rw [ih h]; rfl
    · have hbe : b = n := by omega
      subst hbe
      have hnone : (List.range b).find? p = none := by
        rw [List.find?_eq_none]
        intro x hx
        simp [hmin x (List.mem_range.mp hx)]
      rw [hnone]
      simp [hpb]

open Classical in
/-- The selection loop of the code equals the spec's selection rule — the
first fold no other fold strictly beats — whenever the scores are uniformly
NaN or uniformly real, as the probe scores of one group always are (their
NaN condition does not depend on the probed fold). -/
lemma pickFold_eq_leastArgmin (n : ℕ) (score : ℕ → Option ℝ)
    (huni : (∀ i, score i = none) ∨ ∃ r : ℕ → ℝ, ∀ i, score i = some (r i)) :
    pickFold n score = leastArgmin n score := by
  by_cases hn : 1 ≤ n
  · rcases huni with hnan | ⟨r, hs⟩
    · have h1 : pickFold n score = some 0 := by
        simp [pickFold, pickAux_nan score hnan n hn]
      rw [h1, leastArgmin]
      refine (find?_range_first _ 0 ?_ (by omega) n (by omega)).symm
      apply decide_eq_true
      intro j hj
      rw [hnan 0]
      exact floatLt_none_right _
    · obtain ⟨b, heq, hb, hmin, hfirst⟩ := pickAux_spec score r hs n hn
      have h1 : pickFold n score = some b := by
        simp [pickFold, heq]
      rw [h1, leastArgmin]
      refine (find?_range_first _ b ?_ ?_ n hb).symm
      · apply decide_eq_true
        intro j hj
        rw [hs j, hs b]
        intro hcon
        exact absurd (hmin j hj) (not_le.mpr (floatLt_some_iff.mp hcon))
      · intro i hi
        apply decide_eq_false
        intro hall
        have hcon := hall b hb
        rw [hs b, hs i] at hcon
        exact hcon (floatLt_some_iff.mpr (hfirst i hi))
  · have : n = 0 := by omega
    subst this
    simp [pickFold, leastArgmin]

/-- Probe scores of one group are uniformly NaN or uniformly real: the NaN
guard does not depend on the probed fold. -/
lemma foldScore_uniform (n L : ℕ) (distr : ℕ → ℕ) (T : ℕ → ℕ → ℕ)
    (c : ℕ → ℕ) :
    (∀ i, foldScore n L distr T c i = none) ∨
      ∃ r : ℕ → ℝ, ∀ i, foldScore n L distr T c i = some (r i) := by
  by_cases h : n = 0 ∨ L = 0 ∨ ∃ lab < L, distr lab = 0
  · left
    intro i
    simp [foldScore, h]
  · right
    refine ⟨fun i => npMean ((List.range L).map fun lab =>
      npStd ((List.range n).map fun f =>
        ((T f lab + if f = i then c lab else 0 : ℕ) : ℝ) / (distr lab : ℝ))),
      fun i => ?_⟩
    simp [foldScore, h]

/-- The code's greedy assignment loop coincides with the spec's. -/
lemma assignGo_eq_spec {G : Type} [DecidableEq G] (n L : ℕ) (distr : ℕ → ℕ) :
    ∀ (items : List (G × List ℕ)) (T : ℕ → ℕ → ℕ) (asn : List (G × ℕ)),
      assignGo n L distr items T asn = assignGoSpec n L distr items T asn := by
  intro items
  induction items with
  | nil => intro T asn; rfl
  | cons gc rest ih =>
    intro T asn
    obtain ⟨g, c⟩ := gc
    simp only [assignGo, assignGoSpec, ← pickFold_eq_leastArgmin _ _
      (foldScore_uniform n L distr T fun lab => c.getD lab 0)]
    cases pickFold n (foldScore n L distr T fun lab => c.getD lab 0) with
    | none => exact ih T asn
    | some b => exact ih _ _

/-! ### Lemmas about the assignment list and the yield loop -/

/-- Keys of `firstKeys` are exactly the elements of the underlying list. -/
lemma mem_firstKeys {G : Type} [DecidableEq G] {a : G} {l : List G} :
    a ∈ firstKeys l ↔ a ∈ l := by
  simp [firstKeys]

/-- Dictionary keys are distinct. -/
lemma firstKeys_nodup {G : Type} [DecidableEq G] (l : List G) :
    (firstKeys l).Nodup := by
  simp [firstKeys, List.nodup_reverse]
  exact List.nodup_dedup _

/-- With at least one fold, the assignment loop assigns every processed group
exactly once, in processing order. -/
lemma assignGo_map_fst {G : Type} [DecidableEq G] (n L : ℕ) (distr : ℕ → ℕ)
    (hn : 1 ≤ n) :
    ∀ (items : List (G × List ℕ)) (T : ℕ → ℕ → ℕ) (asn : List (G × ℕ)),
      (assignGo n L distr items T asn).map Prod.fst
        = asn.map Prod.fst ++ items.map Prod.fst := by
  intro items
  induction items with
  | nil => intro T asn; simp [assignGo]
  | cons gc rest ih =>
    intro T asn
    obtain ⟨g, c⟩ := gc
    obtain ⟨b, hb, -⟩ :=
      pickFold_some (foldScore n L distr T fun lab => c.getD lab 0) n hn
    simp only [assignGo, hb]
    rw [ih]
    simp

/-- Folds recorded in the assignment list are genuine fold indices. -/
lemma assignGo_snd_lt {G : Type} [DecidableEq G] (n L : ℕ) (distr : ℕ → ℕ) :
    ∀ (items : List (G × List ℕ)) (T : ℕ → ℕ → ℕ) (asn : List (G × ℕ)),
      (∀ e ∈ asn, e.2 < n) →
      ∀ e ∈ assignGo n L distr items T asn, e.2 < n := by
  intro items
  induction items with
  | nil => intro T asn h; simpa [assignGo] using h
  | cons gc rest ih =>
    intro T asn h
    obtain ⟨g, c⟩ := gc
    cases hpf : pickFold n (foldScore n L distr T fun lab => c.getD lab 0) with
    | none =>
      simp only [assignGo, hpf]
      exact ih _ _ h
    | some b =>
      simp only [assignGo, hpf]
      apply ih
      intro e he
      rcases List.mem_append.mp he with h1 | h2
      · exact h e h1
      · have : e = (g, b) := by simpa using h2
        subst this
        exact pickFold_lt _ n b hpf

/-- Membership in an index list produced by filtering `enumerate(groups)` by a
predicate on the group. -/
lemma mem_filterIdx {G : Type} (groups : List G) (p : G → Bool) (j : ℕ) :
    (j ∈ (groups.enum.filter fun q => p q.2).map Prod.fst) ↔
      ∃ h : j < groups.length, p (groups[j]) = true := by
  constructor
  · intro hmem
    obtain ⟨⟨j', a⟩, hin, hfst⟩ := List.mem_map.mp hmem
    obtain ⟨henum, hp⟩ := List.mem_filter.mp hin
    obtain ⟨hlt, hget⟩ :=
      List.getElem?_eq_some_iff.mp (List.mem_enum_iff_getElem?.mp henum)
    cases hfst
    exact ⟨hlt, hget ▸ hp⟩
  · rintro ⟨h, hp⟩
    refine List.mem_map.mpr ⟨(j, groups[j]), List.mem_filter.mpr ⟨?_, hp⟩, rfl⟩
    exact List.mem_enum_iff_getElem?.mpr (List.getElem?_eq_some_iff.mpr ⟨h, rfl⟩)

/-- Index lists produced by filtering `enumerate(groups)` are strictly
ascending. -/
lemma filterIdx_sorted {G : Type} (groups : List G) (p : ℕ × G → Bool) :
    ((groups.enum.filter p).map Prod.fst).Pairwise (· < ·) := by
  have hsub : ((groups.enum.filter p).map Prod.fst).Sublist
      (groups.enum.map Prod.fst) :=
    List.Sublist.map _ (List.filter_sublist _)
  rw [List.enum_map_fst] at hsub
  exact List.Pairwise.sublist hsub (List.pairwise_lt_range _)

/-- Length of the yielded list. -/
lemma length_emitFolds {G : Type} [DecidableEq G] (groups : List G) (n : ℕ)
    (asn : List (G × ℕ)) : (emitFolds groups n asn).length = n := by
  simp [emitFolds]

/-- The pair yielded for fold `i`. -/
lemma emitFolds_getD {G : Type} [DecidableEq G] (groups : List G) (n : ℕ)
    (asn : List (G × ℕ)) (i : ℕ) (hi : i < n) :
    (emitFolds groups n asn).getD i ([], []) =
      (foldTrainIdx groups asn i, foldTestIdx groups asn i) := by
  have hlen : i < (emitFolds groups n asn).length := by
    rw [length_emitFolds]; exact hi
  rw [List.getD_eq_getElem _ _ hlen]
  simp [emitFolds]

/-- Membership in the train index list of fold `i`. -/
lemma mem_foldTrainIdx {G : Type} [DecidableEq G] (groups : List G)
    (asn : List (G × ℕ)) (i j : ℕ) :
    j ∈ foldTrainIdx groups asn i ↔
      ∃ h : j < groups.length,
        groups[j] ∈ groups ∧ ¬ groups[j] ∈ foldGroups asn i := by
  constructor
  · intro h
    obtain ⟨hlt, hp⟩ := (mem_filterIdx groups
      (fun g => decide (g ∈ groups ∧ ¬ g ∈ foldGroups asn i)) j).mp h
    exact ⟨hlt, of_decide_eq_true hp⟩
  · rintro ⟨h, hp⟩
    exact (mem_filterIdx groups
      (fun g => decide (g ∈ groups ∧ ¬ g ∈ foldGroups asn i)) j).mpr
      ⟨h, decide_eq_true hp⟩

/-- Membership in the test index list of fold `i`. -/
lemma mem_foldTestIdx {G : Type} [DecidableEq G] (groups : List G)
    (asn : List (G × ℕ)) (i j : ℕ) :
    j ∈ foldTestIdx groups asn i ↔
      ∃ h : j < groups.length, groups[j] ∈ foldGroups asn i := by
  constructor
  · intro h
    obtain ⟨hlt, hp⟩ := (mem_filterIdx groups
      (fun g => decide (g ∈ foldGroups asn i)) j).mp h
    exact ⟨hlt, of_decide_eq_true hp⟩
  · rintro ⟨h, hp⟩
    exact (mem_filterIdx groups
      (fun g => decide (g ∈ foldGroups asn i)) j).mpr ⟨h, decide_eq_true hp⟩

/-! ### Claim theorems for the splitter -/

/-- Claim C1: for every call of `StratifiedGroupKFold.split` the greedy fold
assignment follows exactly the specified algorithm — the (group,
label-count-vector) pairs produced by the deterministic seeded shuffle are
stably sorted in descending order of the standard deviation of each group's
own count vector (the stable sort preserves the shuffled order among groups
of equal standard deviation, stated here as the filter-by-key equality), and
each group in that order goes to the fold minimising the mean over labels of
the standard deviation across folds of `fold_count[f][lab] / y_distr[lab]`
with the counts tentatively added, ties broken towards the smallest fold
index because strict `<` is used while folds are probed in ascending order
(`splitSpec` states the selection in exactly the spec's words). -/
theorem split_follows_greedy_spec {G : Type} [DecidableEq G]
    (k : StratifiedGroupKFold) (sh : List (G × List ℕ) → List (G × List ℕ))
    (y : List ℕ) (groups : List G) :
    k.split sh y groups = splitSpec k sh y groups ∧
    (sortedItems (sh (groupItems y groups))).Pairwise
      (fun a b => stdGE a b = true) ∧
    ∀ q : G × List ℕ,
      (sortedItems (sh (groupItems y groups))).filter
          (fun x => stdGE x q && stdGE q x)
        = (sh (groupItems y groups)).filter (fun x => stdGE x q && stdGE q x) := by
  have htrans : ∀ a b c : G × List ℕ,
      stdGE a b = true → stdGE b c = true → stdGE a c = true := by
    intro a b c hab hbc
    exact decide_eq_true (le_trans (of_decide_eq_true hbc) (of_decide_eq_true hab))
  have htotal : ∀ a b : G × List ℕ, (stdGE a b || stdGE b a) = true := by
    intro a b
    rw [Bool.or_eq_true]
    rcases le_total (npStd (a.2.map fun m => (m : ℝ)))
        (npStd (b.2.map fun m => (m : ℝ))) with h | h
    · exact Or.inr (decide_eq_true h)
    · exact Or.inl (decide_eq_true h)
  refine ⟨?_, ?_, ?_⟩
  · unfold StratifiedGroupKFold.split splitSpec groupFoldAsn
    rw [assignGo_eq_spec]
  · exact List.sorted_mergeSort htrans htotal _
  · intro q
    set P : G × List ℕ → Bool := fun x => stdGE x q && stdGE q x with hP
    set l := sh (groupItems y groups) with hl
    have hpair : (l.filter P).Pairwise (fun a b => stdGE a b = true) := by
      apply List.pairwise_of_forall_mem_list
      intro a ha b hb
      have hPa := (List.mem_filter.mp ha).2
      have hPb := (List.mem_filter.mp hb).2
      rw [hP, Bool.and_eq_true] at hPa hPb
      exact htrans a q b hPa.1 hPb.2
    have hsubl : (l.filter P).Sublist (l.mergeSort stdGE) :=
      List.sublist_mergeSort htrans htotal hpair (List.filter_sublist _)
    have hself : (l.filter P).filter P = l.filter P := by
      rw [List.filter_eq_self]
      intro a ha
      exact (List.mem_filter.mp ha).2
    have hsub2 : (l.filter P).Sublist ((l.mergeSort stdGE).filter P) := by
      have h2 := List.Sublist.filter P hsubl
      rwa [hself] at h2
    have hperm : ((l.mergeSort stdGE).filter P).Perm (l.filter P) :=
      (List.mergeSort_perm l stdGE).filter P
    have hlen : (l.filter P).length = ((l.mergeSort stdGE).filter P).length :=
      hperm.length_eq.symm
    exact (hsub2.eq_of_length hlen).symm

/-- Claim C2: for every input, `split` yields exactly `n_splits`
(train, test) pairs, and for each yielded pair the train and test index
lists are disjoint and their union is the full sample index set
`{0, …, N-1}` (here `N = len(groups)`, the length of the enumerated
sequence). -/
theorem split_yields_partition {G : Type} [DecidableEq G]
    (k : StratifiedGroupKFold) (sh : List (G × List ℕ) → List (G × List ℕ))
    (y : List ℕ) (groups : List G) (i : ℕ) (hi : i < k.n_splits) :
    (k.split sh y groups).length = k.n_splits ∧
    (∀ j, ¬ (j ∈ ((k.split sh y groups).getD i ([], [])).1 ∧
             j ∈ ((k.split sh y groups).getD i ([], [])).2)) ∧
    ∀ j, (j ∈ ((k.split sh y groups).getD i ([], [])).1 ∨
          j ∈ ((k.split sh y groups).getD i ([], [])).2) ↔ j < groups.length := by
  have hget : (k.split sh y groups).getD i ([], []) =
      (foldTrainIdx groups (groupFoldAsn k sh y groups) i,
       foldTestIdx groups (groupFoldAsn k sh y groups) i) :=
    emitFolds_getD groups k.n_splits _ i hi
  refine ⟨length_emitFolds groups _ _, ?_, ?_⟩
  · rintro j ⟨h1, h2⟩
    rw [hget] at h1 h2
    obtain ⟨hl1, _, hnotin⟩ := (mem_foldTrainIdx groups _ i j).mp h1
    obtain ⟨hl2, hin⟩ := (mem_foldTestIdx groups _ i j).mp h2
    exact hnotin hin
  · intro j
    rw [hget]
    constructor
    · rintro (h | h)
      · obtain ⟨hlt, -⟩ := (mem_foldTrainIdx groups _ i j).mp h
        exact hlt
      · obtain ⟨hlt, -⟩ := (mem_foldTestIdx groups _ i j).mp h
        exact hlt
    · intro hj
      by_cases hmem : groups[j] ∈ foldGroups (groupFoldAsn k sh y groups) i
      · exact Or.inr ((mem_foldTestIdx groups _ i j).mpr ⟨hj, hmem⟩)
      · exact Or.inl ((mem_foldTrainIdx groups _ i j).mpr
          ⟨hj, List.getElem_mem hj, hmem⟩)

/-- Claim C10: each yielded pair lists its train indices and its test indices
in strictly ascending order, hence without duplicates (for an out-of-range
pair index the default empty pair is trivially sorted). -/
theorem split_indices_ascending {G : Type} [DecidableEq G]
    (k : StratifiedGroupKFold) (sh : List (G × List ℕ) → List (G × List ℕ))
    (y : List ℕ) (groups : List G) (i : ℕ) :
    (((k.split sh y groups).getD i ([], [])).1.Pairwise (· < ·) ∧
      ((k.split sh y groups).getD i ([], [])).1.Nodup) ∧
    (((k.split sh y groups).getD i ([], [])).2.Pairwise (· < ·) ∧
      ((k.split sh y groups).getD i ([], [])).2.Nodup) := by
  by_cases hi : i < k.n_splits
  · have hget : (k.split sh y groups).getD i ([], []) =
        (foldTrainIdx groups (groupFoldAsn k sh y groups) i,
         foldTestIdx groups (groupFoldAsn k sh y groups) i) :=
      emitFolds_getD groups k.n_splits _ i hi
    rw [hget]
    refine ⟨⟨filterIdx_sorted groups _, ?_⟩, filterIdx_sorted groups _, ?_⟩
    · exact List.Pairwise.imp (fun h => Nat.ne_of_lt h) (filterIdx_sorted groups _)
    · exact List.Pairwise.imp (fun h => Nat.ne_of_lt h) (filterIdx_sorted groups _)
  · have hlen : (k.split sh y groups).length ≤ i := by
      have hl : (k.split sh y groups).length = k.n_splits :=
        length_emitFolds groups _ _
      omega
    rw [List.getD_eq_default _ _ hlen]
    simp

/-- Claim C4: `split` is deterministic — two invocations with the same
labels, groups, `n_splits` and `random_state` (hence the same seeded shuffle
function) produce identical outputs.  In this embedding the seeded shuffle of
the Python standard library is a fixed function of the seed, and `split` is a
pure function of its arguments, so determinism is congruence. -/
theorem split_deterministic {G : Type} [DecidableEq G]
    (k k' : StratifiedGroupKFold)
    (sh sh' : List (G × List ℕ) → List (G × List ℕ))
    (y y' : List ℕ) (groups groups' : List G)
    (hk : k = k') (hsh : sh = sh') (hy : y = y') (hg : groups = groups') :
    k.split sh y groups = k'.split sh' y' groups' := by
  subst hk; subst hsh; subst hy; subst hg; rfl

/-- Claim C6, counterexample: with `n_splits = 1 < 2` the code raises no
`InvalidSplitCount` error — no validation exists anywhere in the class — and
`split` still yields one (train, test) pair rather than none. -/
theorem split_no_validation_counterexample :
    ((StratifiedGroupKFold.mk 1 0).split
        (id : List (ℕ × List ℕ) → List (ℕ × List ℕ)) [0] [0]).length = 1 ∧
      (1 : ℕ) ≠ 0 := by
  constructor
  · exact length_emitFolds _ _ _
  · decide

/-- Claim C6, amended: `StratifiedGroupKFold` performs no validation of
`n_splits`: even when `n_splits < 2` or the number of distinct groups is
smaller than `n_splits`, `split` raises no error and yields exactly
`n_splits` (train, test) pairs. -/
theorem split_no_validation {G : Type} [DecidableEq G]
    (k : StratifiedGroupKFold) (sh : List (G × List ℕ) → List (G × List ℕ))
    (y : List ℕ) (groups : List G)
    (_h : k.n_splits < 2 ∨ groups.dedup.length < k.n_splits) :
    (k.split sh y groups).length = k.n_splits :=
  length_emitFolds groups _ _

/-- Claim C3: every group appearing in `groups` lands in the test role of
exactly one of the yielded pairs — group-to-fold assignment is a disjoint and
exhaustive partition of the groups, so no group is split across folds.
Stated for an arbitrary permutation `sh` as the seeded shuffle, with parallel
`y` and `groups` of equal length and at least one fold. -/
theorem group_in_exactly_one_test_fold {G : Type} [DecidableEq G]
    (k : StratifiedGroupKFold) (sh : List (G × List ℕ) → List (G × List ℕ))
    (y : List ℕ) (groups : List G) (g : G) (d : G)
    (hn : 1 ≤ k.n_splits) (hlen : y.length = groups.length)
    (hperm : (sh (groupItems y groups)).Perm (groupItems y groups))
    (hg : g ∈ groups) :
    ((k.split sh y groups).countP fun p =>
        decide (∃ j ∈ p.2, groups.getD j d = g)) = 1 := by
  set asn := groupFoldAsn k sh y groups with hasn
  -- the processed items are a permutation of the dictionary items
  have hsortperm : (sortedItems (sh (groupItems y groups))).Perm
      (groupItems y groups) :=
    (List.mergeSort_perm _ _).trans hperm
  -- keys of the dictionary items
  have hkeys : (groupItems y groups).map Prod.fst
      = firstKeys ((y.zip groups).map Prod.snd) := by
    simp [groupItems, List.map_map, Function.comp_def]
  have hsnd : (y.zip groups).map Prod.snd = groups :=
    List.map_snd_zip y groups (le_of_eq hlen.symm)
  have hnodupkeys : ((groupItems y groups).map Prod.fst).Nodup := by
    rw [hkeys]
    exact firstKeys_nodup _
  -- the assignment list records exactly the processed groups, once each
  have hfst : asn.map Prod.fst
      = (sortedItems (sh (groupItems y groups))).map Prod.fst := by
    rw [hasn]
    unfold groupFoldAsn
    rw [assignGo_map_fst _ _ _ hn]
    simp
  have hfst_perm : (asn.map Prod.fst).Perm
      ((groupItems y groups).map Prod.fst) := by
    rw [hfst]
    exact hsortperm.map _
  have hnodup : (asn.map Prod.fst).Nodup :=
    hfst_perm.nodup_iff.mpr hnodupkeys
  have hmem_g : g ∈ asn.map Prod.fst := by
    rw [hfst_perm.mem_iff, hkeys, mem_firstKeys, hsnd]
    exact hg
  obtain ⟨⟨g0, b⟩, hgb, hfst_eq⟩ := List.mem_map.mp hmem_g
  cases hfst_eq
  -- the recorded fold is a genuine fold index
  have hb : b < k.n_splits := by
    have hin : (g0, b) ∈ assignGo k.n_splits (labelsNum y) (yDistr y groups)
        (sortedItems (sh (groupItems y groups))) (fun _ _ => 0) [] := hgb
    exact assignGo_snd_lt k.n_splits (labelsNum y) (yDistr y groups) _ _ _
      (by simp) (g0, b) hin
  -- uniqueness of the recorded fold
  have huniq : ∀ i, (g0, i) ∈ asn → i = b := by
    intro i hi
    have hpair : (g0, i) = (g0, b) :=
      List.inj_on_of_nodup_map hnodup hi hgb rfl
    exact (Prod.ext_iff.mp hpair).2
  -- membership of a sample of g in the test list of fold i
  have hiff : ∀ i, (∃ j ∈ foldTestIdx groups asn i, groups.getD j d = g0) ↔
      (g0, i) ∈ asn := by
    intro i
    constructor
    · rintro ⟨j, hj, hgd⟩
      obtain ⟨hlt, hmem⟩ := (mem_foldTestIdx groups asn i j).mp hj
      rw [List.getD_eq_getElem _ _ hlt] at hgd
      rw [hgd] at hmem
      obtain ⟨⟨g', i'⟩, hin, hf⟩ := List.mem_map.mp hmem
      obtain ⟨hin', hsndi⟩ := List.mem_filter.mp hin
      have hi' : i' = i := of_decide_eq_true hsndi
      cases hf
      rw [hi'] at hin'
      exact hin'
    · intro hmem
      have hgf : g0 ∈ foldGroups asn i :=
        List.mem_map.mpr ⟨(g0, i), List.mem_filter.mpr ⟨hmem, decide_eq_true rfl⟩, rfl⟩
      obtain ⟨j, hlt, hgj⟩ := List.mem_iff_getElem.mp hg
      refine ⟨j, (mem_foldTestIdx groups asn i j).mpr ⟨hlt, ?_⟩, ?_⟩
      · rw [hgj]; exact hgf
      · rw [List.getD_eq_getElem _ _ hlt, hgj]
  -- compute the count over the yielded pairs
  have hsplit : k.split sh y groups = (List.range k.n_splits).map
      (fun i => (foldTrainIdx groups asn i, foldTestIdx groups asn i)) := rfl
  rw [hsplit, List.countP_map]
  have hcongr : List.countP
      ((fun p => decide (∃ j ∈ p.2, groups.getD j d = g0)) ∘
        fun i => (foldTrainIdx groups asn i, foldTestIdx groups asn i))
      (List.range k.n_splits)
      = List.countP (fun i => i == b) (List.range k.n_splits) := by
    apply List.countP_congr
    intro i _
    simp only [Function.comp]
    constructor
    · intro hp
      have hex := of_decide_eq_true hp
      have : (g0, i) ∈ asn := (hiff i).mp hex
      exact beq_iff_eq.mpr (huniq i this)
    · intro hp
      have hib : i = b := beq_iff_eq.mp hp
      subst hib
      exact decide_eq_true ((hiff i).mpr hgb)
  rw [hcongr]
  have hcount : List.countP (fun i => i == b) (List.range k.n_splits)
      = List.count b (List.range k.n_splits) := rfl
  rw [hcount]
  exact List.count_eq_one_of_mem (List.nodup_range _) (List.mem_range.mpr hb)

/-- Claim C5: the composite label encoder maps positions to equal codes iff
their (class label, auxiliary) pairs are equal, the number of distinct output
codes equals the number of distinct observed input pairs, and the codes are
dense (below the number of distinct pairs). -/
theorem merge_encoding_faithful (ys idx : List ℤ) (hlen : ys.length = idx.length)
    (i j : ℕ) (hi : i < ys.length) (hj : j < ys.length) :
    ((merge_y_and_others ys idx).getD i 0 = (merge_y_and_others ys idx).getD j 0 ↔
      (ys.getD i 0, idx.getD i 0) = (ys.getD j 0, idx.getD j 0)) ∧
    (merge_y_and_others ys idx).dedup.length = (ys.zip idx).dedup.length ∧
    ∀ x ∈ merge_y_and_others ys idx, x < (ys.zip idx).dedup.length := by
  have hout : merge_y_and_others ys idx
      = (ys.zip idx).map fun p =>
          @List.indexOf (ℤ × ℤ) instBEqOfDecidableEq p ((ys.zip idx).dedup.mergeSort pairLe) := rfl
  have hplen : (ys.zip idx).length = ys.length := by
    rw [List.length_zip]
    omega
  have holen : (merge_y_and_others ys idx).length = ys.length := by
    rw [hout, List.length_map, hplen]
  have hclass_mem : ∀ p ∈ ys.zip idx,
      p ∈ (ys.zip idx).dedup.mergeSort pairLe := by
    intro p hp
    exact List.mem_mergeSort.mpr (List.mem_dedup.mpr hp)
  have hclen : ((ys.zip idx).dedup.mergeSort pairLe).length
      = (ys.zip idx).dedup.length :=
    (List.mergeSort_perm _ _).length_eq
  have hip : i < (ys.zip idx).length := by omega
  have hjp : j < (ys.zip idx).length := by omega
  have hi2 : i < (merge_y_and_others ys idx).length := by omega
  have hj2 : j < (merge_y_and_others ys idx).length := by omega
  refine ⟨?_, ?_, ?_⟩
  · have hmi : (merge_y_and_others ys idx)[i]
        = @List.indexOf (ℤ × ℤ) instBEqOfDecidableEq ((ys.zip idx)[i])
            ((ys.zip idx).dedup.mergeSort pairLe) := by
      simp [merge_y_and_others]
    have hmj : (merge_y_and_others ys idx)[j]
        = @List.indexOf (ℤ × ℤ) instBEqOfDecidableEq ((ys.zip idx)[j])
            ((ys.zip idx).dedup.mergeSort pairLe) := by
      simp [merge_y_and_others]
    rw [List.getD_eq_getElem _ _ hi2, List.getD_eq_getElem _ _ hj2, hmi, hmj,
      List.getD_eq_getElem _ _ hi, List.getD_eq_getElem _ _ hj,
      List.getD_eq_getElem _ _ (show i < idx.length by omega),
      List.getD_eq_getElem _ _ (show j < idx.length by omega)]
    have hzi : (ys.zip idx)[i] = (ys[i], idx[i]) :=
      List.getElem_zip
    have hzj : (ys.zip idx)[j] = (ys[j], idx[j]) :=
      List.getElem_zip
    rw [← hzi, ← hzj]
    exact List.indexOf_inj (hclass_mem _ (List.getElem_mem hip))
      (hclass_mem _ (List.getElem_mem hjp))
  · have himg : (merge_y_and_others ys idx).toFinset
        = (ys.zip idx).toFinset.image fun p =>
            @List.indexOf (ℤ × ℤ) instBEqOfDecidableEq p ((ys.zip idx).dedup.mergeSort pairLe) := by
      rw [hout]
      ext x
      simp
    have hinj : Set.InjOn
        (fun p => @List.indexOf (ℤ × ℤ) instBEqOfDecidableEq p ((ys.zip idx).dedup.mergeSort pairLe))
        ↑(ys.zip idx).toFinset := by
      intro a ha b hb hab
      have hab2 : @List.indexOf (ℤ × ℤ) instBEqOfDecidableEq a ((ys.zip idx).dedup.mergeSort pairLe)
          = @List.indexOf (ℤ × ℤ) instBEqOfDecidableEq b ((ys.zip idx).dedup.mergeSort pairLe) := hab
      exact (List.indexOf_inj (hclass_mem a (List.mem_toFinset.mp ha))
        (hclass_mem b (List.mem_toFinset.mp hb))).mp hab2
    calc (merge_y_and_others ys idx).dedup.length
        = (merge_y_and_others ys idx).toFinset.card :=
          (List.card_toFinset _).symm
      _ = ((ys.zip idx).toFinset.image fun p =>
            @List.indexOf (ℤ × ℤ) instBEqOfDecidableEq p ((ys.zip idx).dedup.mergeSort pairLe)).card := by
          rw [himg]
      _ = (ys.zip idx).toFinset.card := Finset.card_image_of_injOn hinj
      _ = (ys.zip idx).dedup.length := List.card_toFinset _
  · intro x hx
    rw [hout] at hx
    obtain ⟨p, hp, rfl⟩ := List.mem_map.mp hx
    have hlt := List.indexOf_lt_length.mpr (hclass_mem p hp)
    omega

/-- Claim C5 witness: a concrete instance with repeated and distinct pairs. -/
theorem merge_encoding_faithful_witness :
    ([(0:ℤ), 0, 5].length = [(1:ℤ), 2, 1].length) ∧ (0 < [(0:ℤ), 0, 5].length) ∧
      (1 < [(0:ℤ), 0, 5].length) ∧
    (((merge_y_and_others [0, 0, 5] [1, 2, 1]).getD 0 0
        = (merge_y_and_others [0, 0, 5] [1, 2, 1]).getD 1 0 ↔
      (([(0:ℤ), 0, 5].getD 0 0, [(1:ℤ), 2, 1].getD 0 0)
        = ([(0:ℤ), 0, 5].getD 1 0, [(1:ℤ), 2, 1].getD 1 0))) ∧
    (merge_y_and_others [0, 0, 5] [1, 2, 1]).dedup.length
        = ([(0:ℤ), 0, 5].zip [(1:ℤ), 2, 1]).dedup.length ∧
    ∀ x ∈ merge_y_and_others [0, 0, 5] [1, 2, 1],
      x < ([(0:ℤ), 0, 5].zip [(1:ℤ), 2, 1]).dedup.length) :=
  ⟨rfl, by decide, by decide,
    merge_encoding_faithful [0, 0, 5] [1, 2, 1] rfl 0 1 (by decide) (by decide)⟩

/-! ### Lemmas about the early-stopping window -/

/-- The window always holds `EARLY_STOP_STEPS` values. -/
lemma winAfter_length (E : ℕ) (v : ℕ → ℚ) (hE : 1 ≤ E) :
    ∀ m, (winAfter E v m).length = E := by
  intro m
  induction m with
  | zero => simp [winAfter]
  | succ m ih =>
    simp only [winAfter, List.length_append, List.length_drop, ih,
      List.length_singleton]
    omega

/-- Window contents while the sentinel values are still being evicted. -/
lemma winAfter_le (E : ℕ) (v : ℕ → ℚ) :
    ∀ m, m ≤ E → winAfter E v m
      = List.replicate (E - m) 1000 ++ (List.range m).map fun i => v (i + 1) := by
  intro m
  induction m with
  | zero => simp [winAfter]
  | succ m ih =>
    intro hm
    have hm' : m ≤ E := by omega
    rw [winAfter, ih hm']
    have hrep : List.replicate (E - m) (1000 : ℚ)
        = 1000 :: List.replicate (E - (m + 1)) 1000 := by
      have h1 : E - m = (E - (m + 1)) + 1 := by omega
      rw [h1, List.replicate_succ]
    rw [hrep]
    simp [List.range_succ, List.append_assoc]

/-- Window contents after the sentinels have been fully evicted: the last
`E` validation losses, oldest first. -/
lemma winAfter_ge (E : ℕ) (v : ℕ → ℚ) (hE : 1 ≤ E) :
    ∀ kk, winAfter E v (E + kk) = (List.range E).map fun i => v (i + 1 + kk) := by
  intro kk
  induction kk with
  | zero =>
    have h0 := winAfter_le E v E (le_refl E)
    simpa using h0
  | succ kk ih =>
    have hstep : winAfter E v (E + (kk + 1))
        = (winAfter E v (E + kk)).drop 1 ++ [v (E + kk + 1)] := by
      have h1 : E + (kk + 1) = (E + kk) + 1 := by omega
      rw [h1, winAfter]
    obtain ⟨E', rfl⟩ : ∃ E', E = E' + 1 := ⟨E - 1, by omega⟩
    have hdrop : List.drop 1
        (List.map (fun i => v (i + 1 + kk)) (List.range (E' + 1)))
        = List.map (fun i => v (i + 1 + 1 + kk)) (List.range E') := by
      rw [List.range_succ_eq_map]
      simp only [List.map_cons, List.drop_succ_cons, List.drop_zero,
        List.map_map]
      apply List.map_congr_left
      intro a _
      simp only [Function.comp_apply]
    rw [hstep, ih, hdrop, List.range_succ, List.map_append]
    congr 1
    apply List.map_congr_left
    intro a _
    congr 1
    omega

/-- Strictly increasing losses propagate to the final epoch of the second
window. -/
lemma chain_lt (E : ℕ) (v : ℕ → ℚ)
    (hinc : ∀ t, E ≤ t → t < 2 * E → v t < v (t + 1)) :
    ∀ d j, E ≤ j → j + d = 2 * E → 0 < d → v j < v (2 * E) := by
  intro d
  induction d with
  | zero => omega
  | succ d ih =>
    intro j hj hsum _
    have hstep : v j < v (j + 1) := hinc j hj (by omega)
    by_cases hd : d = 0
    · subst hd
      have hj1 : j + 1 = 2 * E := by omega
      rw [← hj1]
      exact hstep
    · exact hstep.trans (ih (j + 1) (by omega) (by omega) (by omega))

/-- Running the epoch loop from epoch `t` with the no-stop window: if the
stop condition is guaranteed at epoch `2·E`, the loop stops at some epoch at
most `2·E`. -/
lemma esGo_stops (E N : ℕ) (v : ℕ → ℚ) (hN : 2 * E < N)
    (hcond : ((winAfter E v (2 * E - 1)).countP
        fun l => decide (l < v (2 * E))) = E) :
    ∀ d t, t + d = 2 * E → 1 ≤ t →
      ∃ r, esGo v E (N - t) t (winAfter E v (t - 1)) = some r ∧ r ≤ 2 * E := by
  intro d
  induction d with
  | zero =>
    intro t ht _
    have ht' : t = 2 * E := by omega
    subst ht'
    obtain ⟨fuel, hfuel⟩ : ∃ fuel, N - 2 * E = fuel + 1 :=
      ⟨N - 2 * E - 1, by omega⟩
    rw [hfuel]
    exact ⟨2 * E, by simp only [esGo, hcond, if_pos], le_refl _⟩
  | succ d ih =>
    intro t ht h1
    have htlt : t < 2 * E := by omega
    obtain ⟨fuel, hfuel⟩ : ∃ fuel, N - t = fuel + 1 := ⟨N - t - 1, by omega⟩
    rw [hfuel]
    by_cases hc : ((winAfter E v (t - 1)).countP fun l => decide (l < v t)) = E
    · exact ⟨t, by simp only [esGo, hc, if_pos], by omega⟩
    · have hwin : (winAfter E v (t - 1)).drop 1 ++ [v t] = winAfter E v t := by
        obtain ⟨t', rfl⟩ : ∃ t', t = t' + 1 := ⟨t - 1, by omega⟩
        simp [winAfter]
      have hfuel' : fuel = N - (t + 1) := by omega
      have hnext := ih (t + 1) (by omega) (by omega)
      simp only [esGo, hc, if_neg, ite_false]
      rw [hwin, hfuel']
      simpa using hnext

/-- Claim C7: for a validation-loss sequence that is non-increasing over the
first `EARLY_STOP_STEPS` epochs and then strictly increasing over each of the
next `EARLY_STOP_STEPS` epochs, the early-stopping rule halts training no
later than `2 × EARLY_STOP_STEPS` epochs in (given that the epoch loop runs
at least that far, i.e. `2·E ≤ N_EPOCHS - 1`). -/
theorem early_stop_within_two_windows (E N : ℕ) (v : ℕ → ℚ)
    (hE : 1 ≤ E) (hN : 2 * E < N)
    (_hdec : ∀ t, 1 ≤ t → t < E → v (t + 1) ≤ v t)
    (hinc : ∀ t, E ≤ t → t < 2 * E → v t < v (t + 1)) :
    ∃ t, stopEpoch E N v = some t ∧ t ≤ 2 * E := by
  have hwlen : (winAfter E v (2 * E - 1)).length = E := winAfter_length E v hE _
  have hcond : ((winAfter E v (2 * E - 1)).countP
      fun l => decide (l < v (2 * E))) = E := by
    have hcount : ((winAfter E v (2 * E - 1)).countP
        fun l => decide (l < v (2 * E))) = (winAfter E v (2 * E - 1)).length := by
      apply List.countP_eq_length.mpr
      intro a ha
      have h2 : 2 * E - 1 = E + (E - 1) := by omega
      rw [h2, winAfter_ge E v hE] at ha
      obtain ⟨i, hi, rfl⟩ := List.mem_map.mp ha
      have hir := List.mem_range.mp hi
      apply decide_eq_true
      have h3 : i + 1 + (E - 1) = E + i := by omega
      rw [h3]
      exact chain_lt E v hinc (E - i) (E + i) (by omega) (by omega) (by omega)
    rw [hwlen] at hcount
    exact hcount
  obtain ⟨r, hr, hrle⟩ :=
    esGo_stops E N v hN hcond (2 * E - 1) 1 (by omega) (le_refl 1)
  refine ⟨r, ?_, hrle⟩
  have hw0 : winAfter E v 0 = List.replicate E 1000 := rfl
  rw [stopEpoch]
  rw [← hw0]
  simpa using hr

/-- Claim C7 witness: one window step, loop long enough, losses `t ↦ t`. -/
theorem early_stop_within_two_windows_witness :
    1 ≤ 1 ∧ 2 * 1 < 4 ∧
    (∀ t : ℕ, 1 ≤ t → t < 1 → (fun n : ℕ => (n : ℚ)) (t + 1) ≤ (fun n : ℕ => (n : ℚ)) t) ∧
    (∀ t : ℕ, 1 ≤ t → t < 2 * 1 →
      (fun n : ℕ => (n : ℚ)) t < (fun n : ℕ => (n : ℚ)) (t + 1)) ∧
    ∃ t, stopEpoch 1 4 (fun n : ℕ => (n : ℚ)) = some t ∧ t ≤ 2 * 1 := by
  refine ⟨le_refl 1, by omega, ?_, ?_, ?_⟩
  · intro t h1 h2
    exact absurd h2 (by omega)
  · intro t h1 h2
    have ht : t = 1 := by omega
    subst ht
    norm_num
  · exact early_stop_within_two_windows 1 4 (fun n : ℕ => (n : ℚ)) (le_refl 1)
      (by omega) (fun t h1 h2 => absurd h2 (by omega))
      (fun t h1 h2 => by
        have ht : t = 1 := by omega
        subst ht
        norm_num)

/-- If the early-stop condition never fires, the loop consumes all of its
iterations. -/
lemma erGo_eq_fuel_of_none (v : ℕ → ℚ) (E : ℕ) :
    ∀ fuel t w, esGo v E fuel t w = none → erGo v E fuel t w = fuel := by
  intro fuel
  induction fuel with
  | zero => intro t w _; rfl
  | succ fuel ih =>
    intro t w h
    by_cases hc : w.countP (fun l => decide (l < v t)) = E
    · simp only [esGo, hc, if_pos] at h
      exact absurd h (by simp)
    · simp only [esGo, hc, if_neg, ite_false] at h
      simp only [erGo, hc, if_neg, ite_false]
      rw [ih _ _ h]
      omega

/-- Claim C9, amended: the epoch loop `for epoch in range(1, N_EPOCHS)` trains
for at most `N_EPOCHS - 1` epochs; when the early-stopping condition is never
triggered, exactly `N_EPOCHS - 1` training epochs are performed. -/
theorem epochs_run_without_early_stop (E N : ℕ) (v : ℕ → ℚ)
    (h : stopEpoch E N v = none) : epochsRun E N v = N - 1 :=
  erGo_eq_fuel_of_none v E (N - 1) 1 (List.replicate E 1000) h

/-- Claim C9 amended witness: `N_EPOCHS = 3`, constant loss, no early stop,
two epochs run. -/
theorem epochs_run_without_early_stop_witness :
    stopEpoch 1 3 (fun _ => (0 : ℚ)) = none ∧
      epochsRun 1 3 (fun _ => (0 : ℚ)) = 3 - 1 :=
  ⟨by decide, epochs_run_without_early_stop 1 3 (fun _ => (0 : ℚ)) (by decide)⟩

/-- Claim C9 counterexample: with `N_EPOCHS = 3` and a constant loss the
early-stopping condition never fires, yet only `2 = N_EPOCHS - 1` training
epochs are performed, not `N_EPOCHS = 3` as the claim states
(`for epoch in range(1, N_EPOCHS)` excludes the upper bound). -/
theorem epochs_run_counterexample :
    stopEpoch 1 3 (fun _ => (0 : ℚ)) = none ∧
      epochsRun 1 3 (fun _ => (0 : ℚ)) = 2 ∧ (2 : ℕ) ≠ 3 := by
  refine ⟨by decide, by decide, by decide⟩


/-! ### Lemmas about the selection/checkpoint controller -/

/-- The fold-wide update never raises the best loss above the sentinel. -/
lemma outerUpd_le (s : OuterSt) (e : ℕ × ℕ × ℚ) (h : s.bestOuterLoss ≤ 1000) :
    (outerUpd s e).bestOuterLoss ≤ 1000 := by
  unfold outerUpd
  split_ifs with h2
  · exact le_trans (le_of_lt h2) h
  · exact h

/-- Folding the fold-wide update keeps the best loss at or below the
sentinel. -/
lemma foldl_outerUpd_le (l : List (ℕ × ℕ × ℚ)) :
    ∀ s : OuterSt, s.bestOuterLoss ≤ 1000 →
      (l.foldl outerUpd s).bestOuterLoss ≤ 1000 := by
  induction l with
  | nil => intro s h; exact h
  | cons e rest ih =>
    intro s h
    exact ih _ (outerUpd_le s e h)

/-- Invariant of the epoch loop of one hyperparameter combination: the
evaluation trace belongs to combination `c` with epochs from `t` on; the
persist trace is contained in the evaluation trace; an epoch's loss is
persisted exactly when it is strictly below the per-combination best carried
in `bf` and strictly below every loss evaluated earlier in this run; and the
fold-wide state evolves by folding `outerUpd` over the evaluation trace. -/
lemma ctrlGo_spec (v : ℕ → ℚ) (E : ℕ) (hE : 1 ≤ E) (c : ℕ) :
    ∀ (fuel t : ℕ) (w : List ℚ) (bf : ℚ) (st : OuterSt),
      w.length = E → (∀ x ∈ w, bf ≤ x) → st.bestOuterLoss ≤ bf →
      (∀ e ∈ (ctrlGo v E c fuel t w bf st).1, e.1 = c ∧ t ≤ e.2.1) ∧
      (∀ e ∈ (ctrlGo v E c fuel t w bf st).2.1,
        e ∈ (ctrlGo v E c fuel t w bf st).1) ∧
      (∀ t' val, (c, t', val) ∈ (ctrlGo v E c fuel t w bf st).2.1 ↔
        ((c, t', val) ∈ (ctrlGo v E c fuel t w bf st).1 ∧ val < bf ∧
          ∀ q ∈ (ctrlGo v E c fuel t w bf st).1, q.2.1 < t' → val < q.2.2)) ∧
      ((ctrlGo v E c fuel t w bf st).2.2
        = (ctrlGo v E c fuel t w bf st).1.foldl outerUpd st) := by
  intro fuel
  induction fuel with
  | zero =>
    intro t w bf st hw hbfw hst
    refine ⟨?_, ?_, ?_, ?_⟩ <;> simp [ctrlGo]
  | succ fuel ih =>
    intro t w bf st hw hbfw hst
    by_cases hc : w.countP (fun l => decide (l < v t)) = E
    · -- early stop fires at epoch t: one evaluation, no persist, no update
      have hwne : w ≠ [] := by
        intro h0
        rw [h0] at hw
        simp at hw
        omega
      obtain ⟨x, hx⟩ := List.exists_mem_of_ne_nil w hwne
      have hall : ∀ a ∈ w, decide (a < v t) = true := by
        apply List.countP_eq_length.mp
        rw [hc, hw]
      have hxlt : x < v t := of_decide_eq_true (hall x hx)
      have hnotlt : ¬ v t < bf := by
        intro hlt
        exact absurd (hbfw x hx) (not_le.mpr (hxlt.trans hlt))
      have hnotst : ¬ v t < st.bestOuterLoss := by
        intro hlt
        exact hnotlt (lt_of_lt_of_le hlt hst)
      have hunfold : ctrlGo v E c (fuel + 1) t w bf st
          = ([(c, t, v t)], [], st) := by
        simp only [ctrlGo]
        rw [if_pos hc]
      rw [hunfold]
      refine ⟨?_, ?_, ?_, ?_⟩
      · intro e he
        simp only [List.mem_singleton] at he
        subst he
        exact ⟨rfl, le_refl t⟩
      · intro e he
        simp at he
      · intro t' val
        constructor
        · intro h
          exact absurd h (List.not_mem_nil _)
        · rintro ⟨hmem, hvb, -⟩
          simp only [List.mem_singleton, Prod.mk.injEq] at hmem
          obtain ⟨-, -, hval⟩ := hmem
          subst hval
          exact absurd hvb hnotlt
      · simp only [List.foldl_cons, List.foldl_nil, outerUpd]
        rw [if_neg hnotst]
    · -- no stop at epoch t: push the loss, possibly persist
      have hwlen2 : (w.drop 1 ++ [v t]).length = E := by
        simp only [List.length_append, List.length_drop, hw,
          List.length_singleton]
        omega
      by_cases hbf : v t < bf
      · -- persist: the loss strictly improves the per-combination best
        have hst2 : (if v t < st.bestOuterLoss then (⟨v t, some c⟩ : OuterSt)
            else st).bestOuterLoss ≤ v t := by
          split_ifs with h2
          · exact le_refl _
          · exact not_lt.mp h2
        have hw2 : ∀ x ∈ w.drop 1 ++ [v t], v t ≤ x := by
          intro z hz
          rcases List.mem_append.mp hz with h1 | h1
          · exact le_of_lt (lt_of_lt_of_le hbf (hbfw z (List.mem_of_mem_drop h1)))
          · simp only [List.mem_singleton] at h1
            subst h1
            exact le_refl _
        obtain ⟨ih1, ih2, ih3, ih4⟩ := ih (t + 1) (w.drop 1 ++ [v t]) (v t)
          (if v t < st.bestOuterLoss then ⟨v t, some c⟩ else st) hwlen2 hw2 hst2
        have hunfold : ctrlGo v E c (fuel + 1) t w bf st
            = ((c, t, v t) :: (ctrlGo v E c fuel (t + 1) (w.drop 1 ++ [v t])
                  (v t) (if v t < st.bestOuterLoss then ⟨v t, some c⟩ else st)).1,
               (c, t, v t) :: (ctrlGo v E c fuel (t + 1) (w.drop 1 ++ [v t])
                  (v t) (if v t < st.bestOuterLoss then ⟨v t, some c⟩ else st)).2.1,
               (ctrlGo v E c fuel (t + 1) (w.drop 1 ++ [v t])
                  (v t) (if v t < st.bestOuterLoss then ⟨v t, some c⟩ else st)).2.2) := by
          simp only [ctrlGo]
          rw [if_neg hc, if_pos hbf]
        rw [hunfold]
        refine ⟨?_, ?_, ?_, ?_⟩
        · intro e he
          rcases List.mem_cons.mp he with h1 | h1
          · subst h1
            exact ⟨rfl, le_refl t⟩
          · obtain ⟨he1, he2⟩ := ih1 e h1
            exact ⟨he1, by omega⟩
        · intro e he
          rcases List.mem_cons.mp he with h1 | h1
          · subst h1
            exact List.mem_cons_self _ _
          · exact List.mem_cons_of_mem _ (ih2 e h1)
        · intro t' val
          constructor
          · intro hmem
            rcases List.mem_cons.mp hmem with h1 | h1
            · have ht' : t' = t := congrArg (fun p => p.2.1) h1
              have hval : val = v t := congrArg (fun p => p.2.2) h1
              subst ht'
              subst hval
              refine ⟨List.mem_cons_self _ _, hbf, ?_⟩
              intro q hq hlt
              rcases List.mem_cons.mp hq with h2 | h2
              · subst h2
                exact absurd hlt (lt_irrefl t')
              · have hge := (ih1 q h2).2
                exact absurd hlt (by omega)
            · obtain ⟨hmemR, hvlt, hallR⟩ := (ih3 t' val).mp h1
              refine ⟨List.mem_cons_of_mem _ hmemR, lt_trans hvlt hbf, ?_⟩
              intro q hq hlt
              rcases List.mem_cons.mp hq with h2 | h2
              · subst h2
                exact hvlt
              · exact hallR q h2 hlt
          · rintro ⟨hmem, hvbf, hallq⟩
            rcases List.mem_cons.mp hmem with h1 | h1
            · rw [h1]
              exact List.mem_cons_self _ _
            · have hge : t + 1 ≤ t' := by
                have h2 := (ih1 _ h1).2
                simpa using h2
              apply List.mem_cons_of_mem
              apply (ih3 t' val).mpr
              refine ⟨h1, ?_, ?_⟩
              · have h3 := hallq (c, t, v t) (List.mem_cons_self _ _)
                  (by show t < t'; omega)
                simpa using h3
              · intro q hq hlt
                exact hallq q (List.mem_cons_of_mem _ hq) hlt
        · simp only [List.foldl_cons]
          rw [ih4]
          rfl
      · -- no persist: the loss does not improve the per-combination best
        have hw2 : ∀ x ∈ w.drop 1 ++ [v t], bf ≤ x := by
          intro z hz
          rcases List.mem_append.mp hz with h1 | h1
          · exact hbfw z (List.mem_of_mem_drop h1)
          · simp only [List.mem_singleton] at h1
            subst h1
            exact not_lt.mp hbf
        obtain ⟨ih1, ih2, ih3, ih4⟩ :=
          ih (t + 1) (w.drop 1 ++ [v t]) bf st hwlen2 hw2 hst
        have hnotst : ¬ v t < st.bestOuterLoss := by
          intro hlt
          exact hbf (lt_of_lt_of_le hlt hst)
        have hunfold : ctrlGo v E c (fuel + 1) t w bf st
            = ((c, t, v t) :: (ctrlGo v E c fuel (t + 1) (w.drop 1 ++ [v t])
                  bf st).1,
               (ctrlGo v E c fuel (t + 1) (w.drop 1 ++ [v t]) bf st).2.1,
               (ctrlGo v E c fuel (t + 1) (w.drop 1 ++ [v t]) bf st).2.2) := by
          simp only [ctrlGo]
          rw [if_neg hc, if_neg hbf]
        rw [hunfold]
        refine ⟨?_, ?_, ?_, ?_⟩
        · intro e he
          rcases List.mem_cons.mp he with h1 | h1
          · subst h1
            exact ⟨rfl, le_refl t⟩
          · obtain ⟨he1, he2⟩ := ih1 e h1
            exact ⟨he1, by omega⟩
        · intro e he
          exact List.mem_cons_of_mem _ (ih2 e he)
        · intro t' val
          constructor
          · intro hmem
            obtain ⟨hmemR, hvlt, hallR⟩ := (ih3 t' val).mp hmem
            refine ⟨List.mem_cons_of_mem _ hmemR, hvlt, ?_⟩
            intro q hq hlt
            rcases List.mem_cons.mp hq with h2 | h2
            · subst h2
              exact lt_of_lt_of_le hvlt (not_lt.mp hbf)
            · exact hallR q h2 hlt
          · rintro ⟨hmem, hvbf, hallq⟩
            rcases List.mem_cons.mp hmem with h1 | h1
            · have hval : val = v t := congrArg (fun p => p.2.2) h1
              subst hval
              exact absurd hvbf hbf
            · apply (ih3 t' val).mpr
              refine ⟨h1, hvbf, ?_⟩
              intro q hq hlt
              exact hallq q (List.mem_cons_of_mem _ hq) hlt
        · simp only [List.foldl_cons]
          rw [ih4]
          have hupd : outerUpd st (c, t, v t) = st := by
            unfold outerUpd
            rw [if_neg hnotst]
          rw [hupd]

/-- Invariant of the hyperparameter-grid loop: event combination indices are
at least the starting index, persists are evaluations, a loss is persisted
exactly when it is strictly below the sentinel `1000` and strictly below
every earlier evaluated loss of the same combination, and the fold-wide
state is a fold of `outerUpd` over the evaluation trace. -/
lemma gridGo_spec (E N : ℕ) (hE : 1 ≤ E) :
    ∀ (gs : List (ℕ → ℚ)) (c0 : ℕ) (st : OuterSt), st.bestOuterLoss ≤ 1000 →
      (∀ e ∈ (gridGo E N gs c0 st).1, c0 ≤ e.1) ∧
      (∀ e ∈ (gridGo E N gs c0 st).2.1, e ∈ (gridGo E N gs c0 st).1) ∧
      (∀ c t val, (c, t, val) ∈ (gridGo E N gs c0 st).2.1 ↔
        ((c, t, val) ∈ (gridGo E N gs c0 st).1 ∧ val < 1000 ∧
          ∀ q ∈ (gridGo E N gs c0 st).1, q.1 = c → q.2.1 < t → val < q.2.2)) ∧
      ((gridGo E N gs c0 st).2.2 = (gridGo E N gs c0 st).1.foldl outerUpd st) := by
  intro gs
  induction gs with
  | nil =>
    intro c0 st hst
    refine ⟨?_, ?_, ?_, ?_⟩ <;> simp [gridGo]
  | cons f rest ihg =>
    intro c0 st hst
    obtain ⟨c1, c2, c3, c4⟩ := ctrlGo_spec f E hE c0 (N - 1) 1
      (List.replicate E 1000) 1000 st (by simp)
      (by
        intro x hx
        rw [(List.mem_replicate.mp hx).2])
      hst
    have hst2 : (ctrlGo f E c0 (N - 1) 1 (List.replicate E 1000) 1000
        st).2.2.bestOuterLoss ≤ 1000 := by
      rw [c4]
      exact foldl_outerUpd_le _ _ hst
    obtain ⟨g1, g2, g3, g4⟩ := ihg (c0 + 1)
      (ctrlGo f E c0 (N - 1) 1 (List.replicate E 1000) 1000 st).2.2 hst2
    have hunfold : gridGo E N (f :: rest) c0 st
        = ((ctrlGo f E c0 (N - 1) 1 (List.replicate E 1000) 1000 st).1
            ++ (gridGo E N rest (c0 + 1)
              (ctrlGo f E c0 (N - 1) 1 (List.replicate E 1000) 1000 st).2.2).1,
           (ctrlGo f E c0 (N - 1) 1 (List.replicate E 1000) 1000 st).2.1
            ++ (gridGo E N rest (c0 + 1)
              (ctrlGo f E c0 (N - 1) 1 (List.replicate E 1000) 1000 st).2.2).2.1,
           (gridGo E N rest (c0 + 1)
              (ctrlGo f E c0 (N - 1) 1 (List.replicate E 1000) 1000 st).2.2).2.2) := by
      simp only [gridGo]
    rw [hunfold]
    refine ⟨?_, ?_, ?_, ?_⟩
    · intro e he
      rcases List.mem_append.mp he with h1 | h1
      · exact le_of_eq (c1 e h1).1.symm
      · have h2 := g1 e h1
        omega
    · intro e he
      rcases List.mem_append.mp he with h1 | h1
      · exact List.mem_append_left _ (c2 e h1)
      · exact List.mem_append_right _ (g2 e h1)
    · intro c t val
      constructor
      · intro hmem
        rcases List.mem_append.mp hmem with hA | hB
        · have hc0 : c = c0 := (c1 _ (c2 _ hA)).1
          subst hc0
          obtain ⟨hmemA, hvlt, hallA⟩ := (c3 t val).mp hA
          refine ⟨List.mem_append_left _ hmemA, hvlt, ?_⟩
          intro q hq hqc hqlt
          rcases List.mem_append.mp hq with h2 | h2
          · exact hallA q h2 hqlt
          · exfalso
            have hb := g1 q h2
            omega
        · obtain ⟨hmemB, hvlt, hallB⟩ := (g3 c t val).mp hB
          have hcge : c0 + 1 ≤ c := by
            have h2 := g1 _ hmemB
            simpa using h2
          refine ⟨List.mem_append_right _ hmemB, hvlt, ?_⟩
          intro q hq hqc hqlt
          rcases List.mem_append.mp hq with h2 | h2
          · exfalso
            have hq0 := (c1 q h2).1
            omega
          · exact hallB q h2 hqc hqlt
      · rintro ⟨hmem, hvlt, hallq⟩
        rcases List.mem_append.mp hmem with hA | hB
        · have hc0 : c = c0 := (c1 _ hA).1
          subst hc0
          apply List.mem_append_left
          apply (c3 t val).mpr
          refine ⟨hA, hvlt, ?_⟩
          intro q hq hqlt
          exact hallq q (List.mem_append_left _ hq) (c1 q hq).1 hqlt
        · apply List.mem_append_right
          apply (g3 c t val).mpr
          refine ⟨hB, hvlt, ?_⟩
          intro q hq hqc hqlt
          exact hallq q (List.mem_append_right _ hq) hqc hqlt
    · rw [List.foldl_append, ← c4]
      exact g4

/-- Claim C8, amended: in the epoch-trained branch only the loss metric
triggers checkpoint persistence (`auc` checkpoints exist only in the
boosted-tree branch).  A checkpoint is persisted at an epoch exactly when
its validation loss is strictly below the sentinel `1000` and strictly below
every loss evaluated at an earlier epoch of the *current* hyperparameter
combination — the per-combination best `best_metrics_fold['loss']`, which is
reset at every combination — not the fold-wide best.  The fold-wide state
(`best_outer_metric_loss`, sentinel `1000`, and the best checkpoint name) is
updated exactly when an evaluated loss strictly improves the fold-wide best,
i.e. it is the fold of `outerUpd` over all evaluations in order. -/
theorem checkpoint_persist_rule (E N : ℕ) (grid : List (ℕ → ℚ)) (hE : 1 ≤ E)
    (c t : ℕ) (val : ℚ) :
    ((c, t, val) ∈ (runGrid E N grid).2.1 ↔
      ((c, t, val) ∈ (runGrid E N grid).1 ∧ val < 1000 ∧
        ∀ q ∈ (runGrid E N grid).1, q.1 = c → q.2.1 < t → val < q.2.2)) ∧
    (runGrid E N grid).2.2
      = (runGrid E N grid).1.foldl outerUpd ⟨1000, none⟩ := by
  obtain ⟨-, -, g3, g4⟩ := gridGo_spec E N hE grid 0 ⟨1000, none⟩ (le_refl _)
  exact ⟨g3 c t val, g4⟩

/-- Claim C8 witness: the persist rule instantiated at the two-combination
grid of the counterexample, for the second combination's persist event. -/
theorem checkpoint_persist_rule_witness :
    1 ≤ 1 ∧
    ((((1, 1, (2 : ℚ)) ∈ (runGrid 1 2 [fun _ => (1 : ℚ), fun _ => (2 : ℚ)]).2.1) ↔
      ((1, 1, (2 : ℚ)) ∈ (runGrid 1 2 [fun _ => (1 : ℚ), fun _ => (2 : ℚ)]).1 ∧
        (2 : ℚ) < 1000 ∧
        ∀ q ∈ (runGrid 1 2 [fun _ => (1 : ℚ), fun _ => (2 : ℚ)]).1,
          q.1 = 1 → q.2.1 < 1 → (2 : ℚ) < q.2.2)) ∧
    ((runGrid 1 2 [fun _ => (1 : ℚ), fun _ => (2 : ℚ)]).2.2
      = (runGrid 1 2 [fun _ => (1 : ℚ), fun _ => (2 : ℚ)]).1.foldl
          outerUpd ⟨1000, none⟩)) :=
  ⟨le_refl 1,
    checkpoint_persist_rule 1 2 [fun _ => (1 : ℚ), fun _ => (2 : ℚ)]
      (le_refl 1) 1 1 2⟩

/-- Claim C8 counterexample: with two hyperparameter combinations whose
single-epoch validation losses are `1` and then `2`, the code persists a
checkpoint for the loss `2` of the second combination (its per-combination
best was reset to the sentinel), although `2` does not improve on the
fold-wide best `1` observed in the first combination — refuting the claim
that a persist happens only when the value beats the best across all
combinations tried so far in the fold. -/
theorem checkpoint_persist_counterexample :
    ¬ persistImprovesFoldWide 1 2 [fun _ => (1 : ℚ), fun _ => (2 : ℚ)] := by
  intro h
  have hp : ((1 : ℕ), (1 : ℕ), (2 : ℚ))
      ∈ (runGrid 1 2 [fun _ => (1 : ℚ), fun _ => (2 : ℚ)]).2.1 := by
    decide
  have hq : ((0 : ℕ), (1 : ℕ), (1 : ℚ))
      ∈ (runGrid 1 2 [fun _ => (1 : ℚ), fun _ => (2 : ℚ)]).1 := by
    decide
  have hb : evBefore ((0 : ℕ), (1 : ℕ), (1 : ℚ)) ((1 : ℕ), (1 : ℕ), (2 : ℚ)) := by
    decide
  have hlt := h _ hp _ hq hb
  norm_num at hlt

/-- Claim C2 witness: two folds over two singleton groups. -/
theorem split_yields_partition_witness :
    (0 : ℕ) < 2 ∧
    (((StratifiedGroupKFold.mk 2 0).split
        (id : List (ℕ × List ℕ) → List (ℕ × List ℕ)) [0, 1] [0, 1]).length = 2 ∧
      (∀ j, ¬ (j ∈ (((StratifiedGroupKFold.mk 2 0).split
            (id : List (ℕ × List ℕ) → List (ℕ × List ℕ)) [0, 1]
            [0, 1]).getD 0 ([], [])).1 ∧
          j ∈ (((StratifiedGroupKFold.mk 2 0).split
            (id : List (ℕ × List ℕ) → List (ℕ × List ℕ)) [0, 1]
            [0, 1]).getD 0 ([], [])).2)) ∧
      ∀ j, (j ∈ (((StratifiedGroupKFold.mk 2 0).split
            (id : List (ℕ × List ℕ) → List (ℕ × List ℕ)) [0, 1]
            [0, 1]).getD 0 ([], [])).1 ∨
          j ∈ (((StratifiedGroupKFold.mk 2 0).split
            (id : List (ℕ × List ℕ) → List (ℕ × List ℕ)) [0, 1]
            [0, 1]).getD 0 ([], [])).2) ↔ j < 2) :=
  ⟨by decide, split_yields_partition (StratifiedGroupKFold.mk 2 0)
    (id : List (ℕ × List ℕ) → List (ℕ × List ℕ)) [0, 1] [0, 1] 0 (by decide)⟩

/-- Claim C3 witness: the identity shuffle on two singleton groups. -/
theorem group_in_exactly_one_test_fold_witness :
    1 ≤ 2 ∧ ([0, 1] : List ℕ).length = ([0, 1] : List ℕ).length ∧
    ((id : List (ℕ × List ℕ) → List (ℕ × List ℕ))
        (groupItems [0, 1] [0, 1])).Perm (groupItems [0, 1] [0, 1]) ∧
    (0 : ℕ) ∈ ([0, 1] : List ℕ) ∧
    (((StratifiedGroupKFold.mk 2 0).split
        (id : List (ℕ × List ℕ) → List (ℕ × List ℕ)) [0, 1] [0, 1]).countP
      fun p => decide (∃ j ∈ p.2, ([0, 1] : List ℕ).getD j 0 = 0)) = 1 :=
  ⟨by decide, rfl, List.Perm.refl _, by decide,
    group_in_exactly_one_test_fold (StratifiedGroupKFold.mk 2 0)
      (id : List (ℕ × List ℕ) → List (ℕ × List ℕ)) [0, 1] [0, 1] 0 0
      (by decide) rfl (List.Perm.refl _) (by decide)⟩

/-- Claim C4 witness: the determinism congruence at a concrete call. -/
theorem split_deterministic_witness :
    StratifiedGroupKFold.mk 2 0 = StratifiedGroupKFold.mk 2 0 ∧
    (id : List (ℕ × List ℕ) → List (ℕ × List ℕ))
      = (id : List (ℕ × List ℕ) → List (ℕ × List ℕ)) ∧
    ([0, 1] : List ℕ) = [0, 1] ∧ ([0, 1] : List ℕ) = [0, 1] ∧
    (StratifiedGroupKFold.mk 2 0).split
        (id : List (ℕ × List ℕ) → List (ℕ × List ℕ)) [0, 1] [0, 1]
      = (StratifiedGroupKFold.mk 2 0).split
        (id : List (ℕ × List ℕ) → List (ℕ × List ℕ)) [0, 1] [0, 1] :=
  ⟨rfl, rfl, rfl, rfl,
    split_deterministic (StratifiedGroupKFold.mk 2 0) (StratifiedGroupKFold.mk 2 0)
      (id : List (ℕ × List ℕ) → List (ℕ × List ℕ))
      (id : List (ℕ × List ℕ) → List (ℕ × List ℕ))
      [0, 1] [0, 1] [0, 1] [0, 1] rfl rfl rfl rfl⟩

/-- Claim C6 amended witness: a single fold, below the validity threshold. -/
theorem split_no_validation_witness :
    ((1 : ℕ) < 2 ∨ ([0] : List ℕ).dedup.length < 1) ∧
    ((StratifiedGroupKFold.mk 1 0).split
        (id : List (ℕ × List ℕ) → List (ℕ × List ℕ)) [0] [0]).length = 1 :=
  ⟨Or.inl (by decide),
    split_no_validation (StratifiedGroupKFold.mk 1 0)
      (id : List (ℕ × List ℕ) → List (ℕ × List ℕ)) [0] [0]
      (Or.inl (by decide))⟩
